import Mathlib

/-!
Verification of the parametric cubic spline library (moment computation via
the Thomas algorithm with a Sherman-Morrison correction, system building from
boundary conditions, and spline evaluation).  All arithmetic is modelled
exactly over `ℚ`; the in-place mutation of the C++ buffers is modelled by
explicit state passing over total functions `ℕ → ℚ` (diagonals) and
`ℕ → ℕ → ℚ` (the n×m right-hand-side matrix, row index first).
-/

/-- Boundary condition enumeration, from the header. -/
inductive BoundaryCondition
  | Natural
  | Hermite
  | Periodic
  | NotAKnot
deriving DecidableEq

/-- Pointwise update of a one-dimensional buffer: `a[i] = v`. -/
def updF (f : ℕ → ℚ) (i : ℕ) (v : ℚ) : ℕ → ℚ := fun k => if k = i then v else f k

/-- The mutable state of the tdma loops: the main diagonal `b`, the
right-hand-side matrix `d` and the auxiliary column `q`. -/
structure LoopState where
  b : ℕ → ℚ
  d : ℕ → ℕ → ℚ
  q : ℕ → ℚ

/-- One iteration of the forward-elimination loop of `tdma` at row `i`:
`f = a[i]/b[i-1]`, `b[i] -= f*c[i-1]`, `q[i] -= f*q[i-1]` (perturbed case
only) and `d[i][j] -= f*d[i-1][j]` for every column `j < m`. -/
def fwdStep (pert : Bool) (m : ℕ) (a c : ℕ → ℚ) (i : ℕ) (s : LoopState) : LoopState :=
  let f := a i / s.b (i - 1)
  { b := updF s.b i (s.b i - f * c (i - 1))
    q := if pert then updF s.q i (s.q i - f * s.q (i - 1)) else s.q
    d := fun r j => if r = i ∧ j < m then s.d i j - f * s.d (i - 1) j else s.d r j }

/-- The forward-elimination loop of `tdma`: `fwdIter … k` has run the loop
body for `i = 1, …, k`. -/
def fwdIter (pert : Bool) (m : ℕ) (a c : ℕ → ℚ) (s : LoopState) : ℕ → LoopState
  | 0 => s
  | k + 1 => fwdStep pert m a c (k + 1) (fwdIter pert m a c s k)

/-- The first backward-substitution step of `tdma`: divide row `n-1` of `d`
(and `q[n-1]` in the perturbed case) by `b[n-1]`. -/
def backDiv (pert : Bool) (m n : ℕ) (s : LoopState) : LoopState :=
  { b := s.b
    q := if pert then updF s.q (n - 1) (s.q (n - 1) / s.b (n - 1)) else s.q
    d := fun r j => if r = n - 1 ∧ j < m then s.d r j / s.b (n - 1) else s.d r j }

/-- One iteration of the descending backward-substitution loop at row `i`:
`q[i] = (q[i] - c[i]*q[i+1])/b[i]` (perturbed case only) and
`d[i][j] = (d[i][j] - c[i]*d[i+1][j])/b[i]` for every column `j < m`. -/
def backStep (pert : Bool) (m : ℕ) (c : ℕ → ℚ) (i : ℕ) (s : LoopState) : LoopState :=
  { b := s.b
    q := if pert then updF s.q i ((s.q i - c i * s.q (i + 1)) / s.b i) else s.q
    d := fun r j => if r = i ∧ j < m then (s.d i j - c i * s.d (i + 1) j) / s.b i else s.d r j }

/-- The backward-substitution phase of `tdma`: the initial division of row
`n-1` followed by `k` iterations of the descending loop, i.e. rows
`n-2, …, n-1-k`. -/
def backIter (pert : Bool) (m : ℕ) (c : ℕ → ℚ) (n : ℕ) (s : LoopState) : ℕ → LoopState
  | 0 => backDiv pert m n s
  | k + 1 => backStep pert m c (n - 2 - k) (backIter pert m c n s k)

/-- The four buffers `a`, `b`, `c`, `d` handed to `tdma`, plus the auxiliary
column `q` allocated by `compute_moments` for the perturbed regime. -/
structure TriState where
  a : ℕ → ℚ
  b : ℕ → ℚ
  c : ℕ → ℚ
  d : ℕ → ℕ → ℚ
  q : ℕ → ℚ

/-- Initialization of `q` in the perturbed branch of `tdma`: zero the
entries `1 ≤ i < n`, then `q[0] = -b[0]`, then `q[n-1] = c[n-1]`. -/
def setupQ (n : ℕ) (s : TriState) : ℕ → ℚ :=
  updF (updF (fun i => if 1 ≤ i ∧ i < n then 0 else s.q i) 0 (-s.b 0)) (n - 1) (s.c (n - 1))

/-- Corner modification of `b` in the perturbed branch: `b[0] = 2*b[0]`,
then `b[n-1] = b[n-1] + c[n-1]*vn` with `vn = a[0]/b[0]` (original values). -/
def setupB (n : ℕ) (s : TriState) : ℕ → ℚ :=
  let bt := updF s.b 0 (2 * s.b 0)
  updF bt (n - 1) (bt (n - 1) + s.c (n - 1) * (s.a 0 / s.b 0))

/-- Corner modification of `a` in the perturbed branch: `a[0] = 0`. -/
def setupA (s : TriState) : ℕ → ℚ := updF s.a 0 0

/-- Corner modification of `c` in the perturbed branch: `c[n-1] = 0`. -/
def setupC (n : ℕ) (s : TriState) : ℕ → ℚ := updF s.c (n - 1) 0

/-- The final reconstruction loop of the perturbed branch: per column `j`,
`vy = d[0][j] - d[n-1][j]*vn`, `k = vy/(1+vq)` with
`vq = q[0] - q[n-1]*vn`, and `d[i][j] -= k*q[i]` for every row `i < n`. -/
def reconstruct (n m : ℕ) (vn : ℚ) (s : LoopState) : ℕ → ℕ → ℚ := fun i j =>
  if i < n ∧ j < m then
    s.d i j - (s.d 0 j - s.d (n - 1) j * vn) / (1 + (s.q 0 - s.q (n - 1) * vn)) * s.q i
  else s.d i j

/-- The regime test of `tdma`: `a[0] != 0 || c[n-1] != 0`. -/
def pertFlag (n : ℕ) (s : TriState) : Bool := decide (s.a 0 ≠ 0 ∨ s.c (n - 1) ≠ 0)

/-- The tridiagonal solver `Spline::tdma`, translated from the source: the
perturbed-regime setup (guarded by `pertFlag`), the forward elimination for
`i = 1, …, n-1`, the backward substitution (division of row `n-1`, then the
descending loop for `i = n-2, …, 0`), and the Sherman-Morrison
reconstruction in the perturbed regime. -/
def tdma (n m : ℕ) (s : TriState) : TriState :=
  let pert := pertFlag n s
  let vn : ℚ := if pert then s.a 0 / s.b 0 else 0
  let a1 := if pert then setupA s else s.a
  let b1 := if pert then setupB n s else s.b
  let c1 := if pert then setupC n s else s.c
  let q1 := if pert then setupQ n s else s.q
  let ls := backIter pert m c1 n (fwdIter pert m a1 c1 ⟨b1, s.d, q1⟩ (n - 1)) (n - 1)
  { a := a1
    b := ls.b
    c := c1
    d := if pert then reconstruct n m vn ls else ls.d
    q := ls.q }

/-- Dereference of an optional tangent pointer: the component if the pointer
is non-null, `0.0` otherwise. -/
def tangentAt (t : Option (ℕ → ℚ)) (j : ℕ) : ℚ :=
  match t with
  | some f => f j
  | none => 0

/-- Sub-diagonal built by `compute_moments`: the `i = 0` branch switches on
the left boundary condition, the `i = n-1` branch on the right one, interior
rows get `1`. -/
def buildA (lbc rbc : BoundaryCondition) (n : ℕ) (i : ℕ) : ℚ :=
  if i = 0 then
    match lbc with
    | .Hermite => 0
    | .Periodic => 1
    | _ => 0
  else if i = n - 1 then
    match rbc with
    | .Hermite => 1
    | .Periodic => 1
    | _ => 0
  else 1

/-- Main diagonal built by `compute_moments`. -/
def buildB (lbc rbc : BoundaryCondition) (n : ℕ) (i : ℕ) : ℚ :=
  if i = 0 then
    match lbc with
    | .Hermite => 2
    | .Periodic => 4
    | _ => 1
  else if i = n - 1 then
    match rbc with
    | .Hermite => 2
    | .Periodic => 4
    | _ => 1
  else 4

/-- Super-diagonal built by `compute_moments`. -/
def buildC (lbc rbc : BoundaryCondition) (n : ℕ) (i : ℕ) : ℚ :=
  if i = 0 then
    match lbc with
    | .Hermite => 1
    | .Periodic => 1
    | _ => 0
  else if i = n - 1 then
    match rbc with
    | .Hermite => 0
    | .Periodic => 1
    | _ => 0
  else 1

/-- Right-hand side built by `compute_moments` (stored into the moments
buffer by the source). -/
def buildD (lbc rbc : BoundaryCondition) (n m : ℕ) (p : ℕ → ℕ → ℚ)
    (lt rt : Option (ℕ → ℚ)) (i j : ℕ) : ℚ :=
  if i = 0 then
    match lbc with
    | .Hermite => 6 * ((p 1 j - p 0 j) - tangentAt lt j)
    | .Periodic => 6 * ((p 1 j - p 0 j) - (p 0 j - p (n - 1) j))
    | _ => 0
  else if i = n - 1 then
    match rbc with
    | .Hermite => 6 * (tangentAt rt j - (p i j - p (i - 1) j))
    | .Periodic => 6 * ((p 0 j - p (n - 1) j) - (p (n - 1) j - p (n - 2) j))
    | _ => 0
  else 6 * ((p (i + 1) j - p i j) - (p i j - p (i - 1) j))

/-- The full system handed by `compute_moments` to `tdma`. -/
def buildState (n m : ℕ) (p : ℕ → ℕ → ℚ) (lbc rbc : BoundaryCondition)
    (lt rt : Option (ℕ → ℚ)) : TriState :=
  { a := buildA lbc rbc n
    b := buildB lbc rbc n
    c := buildC lbc rbc n
    d := buildD lbc rbc n m p lt rt
    q := fun _ => 0 }

/-- `Spline::compute_moments`: build the system and solve it in place; the
solved right-hand side is the moment matrix. -/
def computeMoments (n m : ℕ) (p : ℕ → ℕ → ℚ) (lbc rbc : BoundaryCondition)
    (lt rt : Option (ℕ → ℚ)) : ℕ → ℕ → ℚ :=
  (tdma n m (buildState n m p lbc rbc lt rt)).d

/-- The state stored by a `Spline` object after `set`. -/
structure SplineState where
  num_points : ℕ
  num_dims : ℕ
  points : ℕ → ℕ → ℚ
  moments : ℕ → ℕ → ℚ

/-- `Spline::set`: store the sizes and the point buffer and compute the
moments.  The source performs no validation of `num_points`. -/
def splineSet (p : ℕ → ℕ → ℚ) (n m : ℕ) (lbc rbc : BoundaryCondition)
    (lt rt : Option (ℕ → ℚ)) : SplineState :=
  ⟨n, m, p, computeMoments n m p lbc rbc lt rt⟩

/-- Truncation toward zero, as performed by C `fmod(u, 1.0)` through its
quotient. -/
def ratTrunc (u : ℚ) : ℤ := if 0 ≤ u then ⌊u⌋ else -⌊-u⌋

/-- `fmod(u, 1.0)`: the fractional part with the sign of `u`. -/
def fmodOne (u : ℚ) : ℚ := u - ratTrunc u

/-- Index and local parameter selection of single-point `Spline::eval`:
`i = floor(s*(n-1))`, `t = fmod(s*(n-1), 1.0)`, and if `i = n-1` then
`i` is decremented and `t` set to `1`.  The index is modelled as a
mathematical integer (the source stores it in a `std::size_t`). -/
def evalIdxT (n : ℕ) (s : ℚ) : ℤ × ℚ :=
  let u := s * ((n : ℚ) - 1)
  if ⌊u⌋ = (n : ℤ) - 1 then ((n : ℤ) - 1 - 1, 1) else (⌊u⌋, fmodOne u)

/-- The cubic-on-moments formula of `Spline::eval` on segment `i` with local
parameter `t`, in dimension `j`. -/
def cubicPoint (p M : ℕ → ℕ → ℚ) (i : ℕ) (t : ℚ) (j : ℕ) : ℚ :=
  let c := (p (i + 1) j - p i j) - 1 / 6 * (M (i + 1) j - M i j)
  let d := p i j - 1 / 6 * M i j
  1 / 6 * ((1 - t) ^ 3 * M i j + t ^ 3 * M (i + 1) j) + c * t + d

/-- Single-point `Spline::eval` in dimension `j`. -/
def evalAt (n : ℕ) (p M : ℕ → ℕ → ℚ) (s : ℚ) (j : ℕ) : ℚ :=
  cubicPoint p M (evalIdxT n s).1.toNat (evalIdxT n s).2 j

/-- The pivots produced by the forward elimination:
`pivots i = b[i] - (a[i]/pivots (i-1)) * c[i-1]`. -/
def pivots (a b c : ℕ → ℚ) : ℕ → ℚ
  | 0 => b 0
  | i + 1 => b (i + 1) - a (i + 1) / pivots a b c i * c i

/-- One right-hand-side column after forward elimination:
`colF i = d[i] - (a[i]/pivots (i-1)) * colF (i-1)`. -/
def colF (a b c : ℕ → ℚ) (d0 : ℕ → ℚ) : ℕ → ℚ
  | 0 => d0 0
  | i + 1 => d0 (i + 1) - a (i + 1) / pivots a b c i * colF a b c d0 i

/-- Backward substitution on a single column `e` against a main diagonal `B`
and super-diagonal `c`: `backRec k` is the solution value at row `n-1-k`. -/
def backRec (B c e : ℕ → ℚ) (n : ℕ) : ℕ → ℚ
  | 0 => e (n - 1) / B (n - 1)
  | k + 1 => (e (n - 2 - k) - c (n - 2 - k) * backRec B c e n k) / B (n - 2 - k)

/-- The Thomas-algorithm solution value at row `i` of the system
`(a, b, c)` with right-hand-side column `d0`. -/
def colX (a b c d0 : ℕ → ℚ) (n i : ℕ) : ℚ :=
  backRec (pivots a b c) c (colF a b c d0) n (n - 1 - i)

/-- Row `i` of the product `A·y` for the strictly tridiagonal matrix `A`
with sub-diagonal `a`, main diagonal `b` and super-diagonal `c`. -/
def rowLHS (a b c : ℕ → ℚ) (n : ℕ) (y : ℕ → ℚ) (i : ℕ) : ℚ :=
  (if i = 0 then 0 else a i * y (i - 1)) + b i * y i +
    (if i = n - 1 then 0 else c i * y (i + 1))

/-- Row `i` of the product `A·y` for the corner-coupled matrix `A`: the
tridiagonal part plus the corner entries `A[0][n-1] = a[0]` and
`A[n-1][0] = c[n-1]`. -/
def cornerRow (a b c : ℕ → ℚ) (n : ℕ) (y : ℕ → ℚ) (i : ℕ) : ℚ :=
  if i = 0 then b 0 * y 0 + c 0 * y 1 + a 0 * y (n - 1)
  else if i = n - 1 then c (n - 1) * y 0 + a (n - 1) * y (n - 2) + b (n - 1) * y (n - 1)
  else a i * y (i - 1) + b i * y i + c i * y (i + 1)

/-! ### Basic equation lemmas for the recurrences -/

theorem pivots_zero (a b c : ℕ → ℚ) : pivots a b c 0 = b 0 := rfl

theorem pivots_succ (a b c : ℕ → ℚ) (i : ℕ) :
    pivots a b c (i + 1) = b (i + 1) - a (i + 1) / pivots a b c i * c i := rfl

theorem colF_zero (a b c d0 : ℕ → ℚ) : colF a b c d0 0 = d0 0 := rfl

theorem colF_succ (a b c d0 : ℕ → ℚ) (i : ℕ) :
    colF a b c d0 (i + 1) = d0 (i + 1) - a (i + 1) / pivots a b c i * colF a b c d0 i := rfl

theorem backRec_zero (B c e : ℕ → ℚ) (n : ℕ) : backRec B c e n 0 = e (n - 1) / B (n - 1) := rfl

theorem backRec_succ (B c e : ℕ → ℚ) (n k : ℕ) :
    backRec B c e n (k + 1) =
      (e (n - 2 - k) - c (n - 2 - k) * backRec B c e n k) / B (n - 2 - k) := rfl

/-- `backRec` only reads its diagonal and column inputs at indices `≤ n-1`. -/
theorem backRec_congr (B B' c e e' : ℕ → ℚ) (n : ℕ)
    (hB : ∀ r, r ≤ n - 1 → B r = B' r) (he : ∀ r, r ≤ n - 1 → e r = e' r) :
    ∀ k, backRec B c e n k = backRec B' c e' n k := by
  intro k
  induction k with
  | zero => rw [backRec_zero, backRec_zero, hB _ le_rfl, he _ le_rfl]
  | succ k ih =>
    have h1 : n - 2 - k ≤ n - 1 := by omega
    rw [backRec_succ, backRec_succ, ih, hB _ h1, he _ h1]

/-! ### Row identities of the Thomas-algorithm solution -/

/-- Unfolding of `colX` at the last row. -/
theorem colX_last (a b c d0 : ℕ → ℚ) (n : ℕ) :
    colX a b c d0 n (n - 1) = colF a b c d0 (n - 1) / pivots a b c (n - 1) := by
  rw [colX, Nat.sub_self, backRec_zero]

/-- Unfolding of `colX` at a row below the last. -/
theorem colX_mid (a b c d0 : ℕ → ℚ) (n i : ℕ) (hi : i < n - 1) :
    colX a b c d0 n i =
      (colF a b c d0 i - c i * colX a b c d0 n (i + 1)) / pivots a b c i := by
  conv_lhs => rw [colX]
  rw [show n - 1 - i = (n - 2 - i) + 1 by omega, backRec_succ,
    show n - 2 - (n - 2 - i) = i by omega,
    show n - 2 - i = n - 1 - (i + 1) by omega]
  rfl

/-- The back-substituted solution satisfies the eliminated system:
`pivots[i]*x[i] + c[i]*x[i+1] = colF[i]` (no super-diagonal term at the last
row). -/
theorem colX_row (a b c d0 : ℕ → ℚ) (n : ℕ)
    (hp : ∀ i, i < n → pivots a b c i ≠ 0) :
    ∀ i, i < n → pivots a b c i * colX a b c d0 n i +
      (if i = n - 1 then 0 else c i * colX a b c d0 n (i + 1)) = colF a b c d0 i := by
  intro i hi
  by_cases hlast : i = n - 1
  · have hnz := hp i hi
    subst hlast
    rw [if_pos rfl, add_zero, colX_last, mul_comm, div_mul_cancel₀ _ hnz]
  · have hi2 : i < n - 1 := by omega
    have hnz := hp i hi
    rw [if_neg hlast, colX_mid _ _ _ _ _ _ hi2]
    field_simp

/-- The Thomas-algorithm solution solves the original tridiagonal system. -/
theorem rows_solve (a b c d0 : ℕ → ℚ) (n : ℕ)
    (hp : ∀ i, i < n → pivots a b c i ≠ 0) :
    ∀ i, i < n → rowLHS a b c n (colX a b c d0 n) i = d0 i := by
  intro i hi
  cases i with
  | zero =>
    have h0 := colX_row a b c d0 n hp 0 hi
    rw [pivots_zero, colF_zero] at h0
    rw [rowLHS, if_pos rfl]
    linarith [h0]
  | succ j =>
    have hj : j < n := by omega
    have hjne : j ≠ n - 1 := by omega
    have hS1 := colX_row a b c d0 n hp (j + 1) hi
    have hS2 := colX_row a b c d0 n hp j hj
    rw [if_neg hjne] at hS2
    have hnz := hp j hj
    have hE : a (j + 1) / pivots a b c j * pivots a b c j = a (j + 1) :=
      div_mul_cancel₀ _ hnz
    rw [rowLHS, if_neg (Nat.succ_ne_zero j)]
    simp only [Nat.add_sub_cancel]
    rw [pivots_succ, colF_succ] at hS1
    linear_combination hS1 + a (j + 1) / pivots a b c j * hS2 -
      colX a b c d0 n j * hE

/-- Forward direction of the uniqueness argument: any solution of the
original system also satisfies the eliminated system. -/
theorem uniq_up (a b c d0 : ℕ → ℚ) (n : ℕ)
    (hp : ∀ i, i < n → pivots a b c i ≠ 0) (y : ℕ → ℚ)
    (hy : ∀ i, i < n → rowLHS a b c n y i = d0 i) :
    ∀ i, i < n → pivots a b c i * y i +
      (if i = n - 1 then 0 else c i * y (i + 1)) = colF a b c d0 i := by
  intro i
  induction i with
  | zero =>
    intro hi
    have h := hy 0 hi
    rw [rowLHS, if_pos rfl] at h
    rw [pivots_zero, colF_zero]
    linarith [h]
  | succ j ih =>
    intro hi
    have hj : j < n := by omega
    have hG : j ≠ n - 1 := by omega
    have hIH := ih hj
    rw [if_neg hG] at hIH
    have h := hy (j + 1) hi
    rw [rowLHS, if_neg (Nat.succ_ne_zero j)] at h
    simp only [Nat.add_sub_cancel] at h
    have hnz := hp j hj
    have hE : a (j + 1) / pivots a b c j * pivots a b c j = a (j + 1) :=
      div_mul_cancel₀ _ hnz
    rw [pivots_succ, colF_succ]
    linear_combination h - a (j + 1) / pivots a b c j * hIH + y j * hE

/-- Uniqueness: any solution of the tridiagonal system equals the
Thomas-algorithm solution wherever the pivots are nonzero. -/
theorem uniq_solve (a b c d0 : ℕ → ℚ) (n : ℕ) (hn : 1 ≤ n)
    (hp : ∀ i, i < n → pivots a b c i ≠ 0) (y : ℕ → ℚ)
    (hy : ∀ i, i < n → rowLHS a b c n y i = d0 i) :
    ∀ i, i < n → y i = colX a b c d0 n i := by
  have up := uniq_up a b c d0 n hp y hy
  have down : ∀ k, k ≤ n - 1 →
      y (n - 1 - k) = backRec (pivots a b c) c (colF a b c d0) n k := by
    intro k
    induction k with
    | zero =>
      intro _
      have h := up (n - 1) (by omega)
      rw [if_pos rfl, add_zero] at h
      have hnz := hp (n - 1) (by omega)
      rw [Nat.sub_zero, backRec_zero, eq_div_iff hnz]
      linarith [h]
    | succ k ih =>
      intro hk1
      have hk : k ≤ n - 1 := by omega
      have hIH := ih hk
      have hi : n - 2 - k < n := by omega
      have h := up (n - 2 - k) hi
      have hne : n - 2 - k ≠ n - 1 := by omega
      rw [if_neg hne, show (n - 2 - k) + 1 = n - 1 - k by omega, hIH] at h
      have hnz := hp (n - 2 - k) hi
      rw [show n - 1 - (k + 1) = n - 2 - k by omega, backRec_succ, eq_div_iff hnz]
      linarith [h]
  intro i hi
  have h := down (n - 1 - i) (by omega)
  rw [show n - 1 - (n - 1 - i) = i by omega] at h
  exact h

/-! ### Characterization of the forward-elimination loop -/

/-- The main diagonal after `k` forward-elimination steps: rows `≤ k` hold
the pivots, rows beyond are untouched. -/
theorem fwdIter_b (pert : Bool) (m : ℕ) (a c : ℕ → ℚ) (st : LoopState) :
    ∀ k i, (fwdIter pert m a c st k).b i =
      if i ≤ k then pivots a st.b c i else st.b i := by
  intro k
  induction k with
  | zero =>
    intro i
    cases i with
    | zero => rw [fwdIter, if_pos (le_refl 0), pivots_zero]
    | succ j => rw [fwdIter, if_neg (by omega)]
  | succ k ih =>
    intro i
    show (fwdStep pert m a c (k + 1) (fwdIter pert m a c st k)).b i = _
    rw [fwdStep]
    simp only [updF, Nat.add_sub_cancel]
    by_cases hik : i = k + 1
    · rw [if_pos hik, ih (k + 1), if_neg (by omega), ih k, if_pos (le_refl k),
        hik, if_pos (le_refl (k + 1)), pivots_succ]
    · rw [if_neg hik, ih i]
      by_cases hk : i ≤ k
      · rw [if_pos hk, if_pos (by omega)]
      · rw [if_neg hk, if_neg (by omega)]

/-- A right-hand-side column after `k` forward-elimination steps. -/
theorem fwdIter_d (pert : Bool) (m : ℕ) (a c : ℕ → ℚ) (st : LoopState)
    (j : ℕ) (hj : j < m) :
    ∀ k i, (fwdIter pert m a c st k).d i j =
      if i ≤ k then colF a st.b c (fun r => st.d r j) i else st.d i j := by
  intro k
  induction k with
  | zero =>
    intro i
    cases i with
    | zero => rw [fwdIter, if_pos (le_refl 0)]; rfl
    | succ l => rw [fwdIter, if_neg (by omega)]
  | succ k ih =>
    intro i
    show (fwdStep pert m a c (k + 1) (fwdIter pert m a c st k)).d i j = _
    rw [fwdStep]
    simp only [Nat.add_sub_cancel]
    by_cases hik : i = k + 1
    · rw [if_pos ⟨hik, hj⟩, fwdIter_b, if_pos (le_refl k), ih (k + 1),
        if_neg (by omega), ih k, if_pos (le_refl k), hik,
        if_pos (le_refl (k + 1)), colF_succ]
    · rw [if_neg (by tauto), ih i]
      by_cases hk : i ≤ k
      · rw [if_pos hk, if_pos (by omega)]
      · rw [if_neg hk, if_neg (by omega)]

/-- The auxiliary column `q` after `k` forward-elimination steps in the
perturbed regime: it is processed exactly like a right-hand-side column. -/
theorem fwdIter_q (m : ℕ) (a c : ℕ → ℚ) (st : LoopState) :
    ∀ k i, (fwdIter true m a c st k).q i =
      if i ≤ k then colF a st.b c st.q i else st.q i := by
  intro k
  induction k with
  | zero =>
    intro i
    cases i with
    | zero => rw [fwdIter, if_pos (le_refl 0)]; rfl
    | succ l => rw [fwdIter, if_neg (by omega)]
  | succ k ih =>
    intro i
    show (fwdStep true m a c (k + 1) (fwdIter true m a c st k)).q i = _
    rw [fwdStep]
    simp only [if_true, updF, Nat.add_sub_cancel]
    by_cases hik : i = k + 1
    · rw [if_pos hik, fwdIter_b, if_pos (le_refl k), ih (k + 1),
        if_neg (by omega), ih k, if_pos (le_refl k), hik,
        if_pos (le_refl (k + 1)), colF_succ]
    · rw [if_neg hik, ih i]
      by_cases hk : i ≤ k
      · rw [if_pos hk, if_pos (by omega)]
      · rw [if_neg hk, if_neg (by omega)]

/-- In the strict regime the forward loop never writes `q`. -/
theorem fwdIter_q_false (m : ℕ) (a c : ℕ → ℚ) (st : LoopState) :
    ∀ k, (fwdIter false m a c st k).q = st.q := by
  intro k
  induction k with
  | zero => rfl
  | succ k ih =>
    show (fwdStep false m a c (k + 1) (fwdIter false m a c st k)).q = _
    rw [fwdStep]
    simpa using ih

/-! ### Characterization of the backward-substitution loop -/

/-- Backward substitution never writes the diagonal. -/
theorem backIter_b (pert : Bool) (m : ℕ) (c : ℕ → ℚ) (n : ℕ) (st : LoopState) :
    ∀ k, (backIter pert m c n st k).b = st.b := by
  intro k
  induction k with
  | zero => rfl
  | succ k ih =>
    show (backStep pert m c (n - 2 - k) (backIter pert m c n st k)).b = _
    rw [backStep]
    exact ih

/-- A right-hand-side column after the division of row `n-1` and `k`
descending steps: rows `n-1-k … n-1` hold the back-substituted values. -/
theorem backIter_d (pert : Bool) (m : ℕ) (c : ℕ → ℚ) (n : ℕ) (st : LoopState)
    (j : ℕ) (hj : j < m) :
    ∀ k, k ≤ n - 1 → ∀ i, (backIter pert m c n st k).d i j =
      if n - 1 - k ≤ i ∧ i ≤ n - 1 then
        backRec st.b c (fun r => st.d r j) n (n - 1 - i)
      else st.d i j := by
  intro k
  induction k with
  | zero =>
    intro _ i
    show (backDiv pert m n st).d i j = _
    rw [backDiv]
    dsimp only
    by_cases hi : i = n - 1
    · rw [if_pos ⟨hi, hj⟩, if_pos (by omega), hi, Nat.sub_self, backRec_zero]
    · rw [if_neg (fun h => hi h.1), if_neg (by omega)]
  | succ k ih =>
    intro hk1 i
    have hk : k ≤ n - 1 := by omega
    show (backStep pert m c (n - 2 - k) (backIter pert m c n st k)).d i j = _
    rw [backStep, backIter_b]
    dsimp only
    by_cases hik : i = n - 2 - k
    · rw [if_pos ⟨hik, hj⟩, ih hk (n - 2 - k), if_neg (by omega),
        ih hk (n - 2 - k + 1), if_pos (by omega),
        show n - 1 - (n - 2 - k + 1) = k by omega, hik, if_pos (by omega),
        show n - 1 - (n - 2 - k) = k + 1 by omega, backRec_succ]
    · rw [if_neg (fun h => hik h.1), ih hk i]
      by_cases hin : n - 1 - k ≤ i ∧ i ≤ n - 1
      · rw [if_pos hin, if_pos (by omega)]
      · rw [if_neg hin, if_neg (by omega)]

/-- The auxiliary column `q` through backward substitution in the perturbed
regime. -/
theorem backIter_q (m : ℕ) (c : ℕ → ℚ) (n : ℕ) (st : LoopState) :
    ∀ k, k ≤ n - 1 → ∀ i, (backIter true m c n st k).q i =
      if n - 1 - k ≤ i ∧ i ≤ n - 1 then backRec st.b c st.q n (n - 1 - i)
      else st.q i := by
  intro k
  induction k with
  | zero =>
    intro _ i
    show (backDiv true m n st).q i = _
    rw [backDiv]
    simp only [if_true, updF]
    by_cases hi : i = n - 1
    · rw [if_pos hi, if_pos (by omega), hi, Nat.sub_self, backRec_zero]
    · rw [if_neg hi, if_neg (by omega)]
  | succ k ih =>
    intro hk1 i
    have hk : k ≤ n - 1 := by omega
    show (backStep true m c (n - 2 - k) (backIter true m c n st k)).q i = _
    rw [backStep, backIter_b]
    simp only [if_true, updF]
    by_cases hik : i = n - 2 - k
    · rw [if_pos hik, ih hk (n - 2 - k), if_neg (by omega),
        ih hk (n - 2 - k + 1), if_pos (by omega),
        show n - 1 - (n - 2 - k + 1) = k by omega, hik, if_pos (by omega),
        show n - 1 - (n - 2 - k) = k + 1 by omega, backRec_succ]
    · rw [if_neg hik, ih hk i]
      by_cases hin : n - 1 - k ≤ i ∧ i ≤ n - 1
      · rw [if_pos hin, if_pos (by omega)]
      · rw [if_neg hin, if_neg (by omega)]

/-- In the strict regime backward substitution never writes `q`. -/
theorem backIter_q_false (m : ℕ) (c : ℕ → ℚ) (n : ℕ) (st : LoopState) :
    ∀ k, (backIter false m c n st k).q = st.q := by
  intro k
  induction k with
  | zero => rfl
  | succ k ih =>
    show (backStep false m c (n - 2 - k) (backIter false m c n st k)).q = _
    rw [backStep]
    simpa using ih

/-! ### Assembly: the two regimes of `tdma` -/

/-- In the strict regime `tdma` reduces to the plain elimination passes. -/
theorem tdma_strict_eq (n m : ℕ) (s : TriState) (ha : s.a 0 = 0) (hc : s.c (n - 1) = 0) :
    tdma n m s =
      { a := s.a
        b := (backIter false m s.c n
          (fwdIter false m s.a s.c ⟨s.b, s.d, s.q⟩ (n - 1)) (n - 1)).b
        c := s.c
        d := (backIter false m s.c n
          (fwdIter false m s.a s.c ⟨s.b, s.d, s.q⟩ (n - 1)) (n - 1)).d
        q := (backIter false m s.c n
          (fwdIter false m s.a s.c ⟨s.b, s.d, s.q⟩ (n - 1)) (n - 1)).q } := by
  have hf : pertFlag n s = false := by
    simp [pertFlag, ha, hc]
  simp only [tdma, hf, Bool.false_eq_true, if_false]

/-- In the perturbed regime `tdma` reduces to the corner setup, the
elimination passes on the modified system, and the reconstruction. -/
theorem tdma_pert_eq (n m : ℕ) (s : TriState) (hp : s.a 0 ≠ 0 ∨ s.c (n - 1) ≠ 0) :
    tdma n m s =
      { a := setupA s
        b := (backIter true m (setupC n s) n (fwdIter true m (setupA s) (setupC n s)
          ⟨setupB n s, s.d, setupQ n s⟩ (n - 1)) (n - 1)).b
        c := setupC n s
        d := reconstruct n m (s.a 0 / s.b 0)
          (backIter true m (setupC n s) n (fwdIter true m (setupA s) (setupC n s)
            ⟨setupB n s, s.d, setupQ n s⟩ (n - 1)) (n - 1))
        q := (backIter true m (setupC n s) n (fwdIter true m (setupA s) (setupC n s)
          ⟨setupB n s, s.d, setupQ n s⟩ (n - 1)) (n - 1)).q } := by
  have hf : pertFlag n s = true := by
    rw [pertFlag, decide_eq_true_eq]
    exact hp
  simp only [tdma, hf, if_true]

/-- One full strict elimination (forward then backward) computes the
Thomas-algorithm solution column by column. -/
theorem strictPass_d (pert : Bool) (m n : ℕ) (a c bb : ℕ → ℚ) (d : ℕ → ℕ → ℚ)
    (qq : ℕ → ℚ) (j : ℕ) (hj : j < m) (r : ℕ) (hr : r < n) :
    (backIter pert m c n (fwdIter pert m a c ⟨bb, d, qq⟩ (n - 1)) (n - 1)).d r j =
      colX a bb c (fun t => d t j) n r := by
  rw [backIter_d pert m c n _ j hj (n - 1) le_rfl r, if_pos ⟨by omega, by omega⟩, colX]
  have hb : ∀ t, t ≤ n - 1 →
      (fwdIter pert m a c ⟨bb, d, qq⟩ (n - 1)).b t = pivots a bb c t := by
    intro t ht
    rw [fwdIter_b, if_pos ht]
  have hd : ∀ t, t ≤ n - 1 →
      (fwdIter pert m a c ⟨bb, d, qq⟩ (n - 1)).d t j =
        colF a bb c (fun u => d u j) t := by
    intro t ht
    rw [fwdIter_d pert m a c _ j hj (n - 1) t, if_pos ht]
  exact backRec_congr _ _ _ _ _ n hb hd (n - 1 - r)

/-- One full perturbed elimination computes the Thomas-algorithm solution on
the auxiliary column `q` as well. -/
theorem strictPass_q (m n : ℕ) (a c bb : ℕ → ℚ) (d : ℕ → ℕ → ℚ)
    (qq : ℕ → ℚ) (r : ℕ) (hr : r < n) :
    (backIter true m c n (fwdIter true m a c ⟨bb, d, qq⟩ (n - 1)) (n - 1)).q r =
      colX a bb c qq n r := by
  rw [backIter_q m c n _ (n - 1) le_rfl r, if_pos ⟨by omega, by omega⟩, colX]
  have hb : ∀ t, t ≤ n - 1 →
      (fwdIter true m a c ⟨bb, d, qq⟩ (n - 1)).b t = pivots a bb c t := by
    intro t ht
    rw [fwdIter_b, if_pos ht]
  have hq : ∀ t, t ≤ n - 1 →
      (fwdIter true m a c ⟨bb, d, qq⟩ (n - 1)).q t = colF a bb c qq t := by
    intro t ht
    rw [fwdIter_q m a c _ (n - 1) t, if_pos ht]
  exact backRec_congr _ _ _ _ _ n hb hq (n - 1 - r)

/-- The strict regime of `tdma` overwrites each column of `d` with the
Thomas-algorithm solution for that column. -/
theorem tdma_strict_d (n m : ℕ) (s : TriState) (ha : s.a 0 = 0)
    (hc : s.c (n - 1) = 0) (j : ℕ) (hj : j < m) (i : ℕ) (hi : i < n) :
    (tdma n m s).d i j = colX s.a s.b s.c (fun r => s.d r j) n i := by
  rw [tdma_strict_eq n m s ha hc]
  exact strictPass_d false m n s.a s.c s.b s.d s.q j hj i hi

/-- The perturbed regime of `tdma` overwrites each column of `d` with the
solution of the modified system minus the Sherman-Morrison correction
`k·q`. -/
theorem tdma_pert_d (n m : ℕ) (s : TriState) (hn : 2 ≤ n)
    (hp : s.a 0 ≠ 0 ∨ s.c (n - 1) ≠ 0) (j : ℕ) (hj : j < m) (i : ℕ) (hi : i < n) :
    (tdma n m s).d i j =
      colX (setupA s) (setupB n s) (setupC n s) (fun r => s.d r j) n i -
        (colX (setupA s) (setupB n s) (setupC n s) (fun r => s.d r j) n 0 -
          colX (setupA s) (setupB n s) (setupC n s) (fun r => s.d r j) n (n - 1) *
            (s.a 0 / s.b 0)) /
          (1 + (colX (setupA s) (setupB n s) (setupC n s) (setupQ n s) n 0 -
            colX (setupA s) (setupB n s) (setupC n s) (setupQ n s) n (n - 1) *
              (s.a 0 / s.b 0))) *
          colX (setupA s) (setupB n s) (setupC n s) (setupQ n s) n i := by
  rw [tdma_pert_eq n m s hp]
  show reconstruct n m (s.a 0 / s.b 0) _ i j = _
  rw [reconstruct]
  rw [if_pos ⟨hi, hj⟩,
    strictPass_d true m n (setupA s) (setupC n s) (setupB n s) s.d (setupQ n s) j hj i hi,
    strictPass_d true m n (setupA s) (setupC n s) (setupB n s) s.d (setupQ n s) j hj 0
      (by omega),
    strictPass_d true m n (setupA s) (setupC n s) (setupB n s) s.d (setupQ n s) j hj (n - 1)
      (by omega),
    strictPass_q m n (setupA s) (setupC n s) (setupB n s) s.d (setupQ n s) 0 (by omega),
    strictPass_q m n (setupA s) (setupC n s) (setupB n s) s.d (setupQ n s) (n - 1)
      (by omega),
    strictPass_q m n (setupA s) (setupC n s) (setupB n s) s.d (setupQ n s) i hi]

/-- `rowLHS` only reads its solution vector at rows `< n`. -/
theorem rowLHS_congr (a b c : ℕ → ℚ) (n : ℕ) (y y' : ℕ → ℚ) (i : ℕ) (hi : i < n)
    (h : ∀ r, r < n → y r = y' r) :
    rowLHS a b c n y i = rowLHS a b c n y' i := by
  have ha2 : (if i = 0 then (0 : ℚ) else a i * y (i - 1)) =
      (if i = 0 then 0 else a i * y' (i - 1)) := by
    split_ifs with h0
    · rfl
    · rw [h (i - 1) (by omega)]
  have hc2 : (if i = n - 1 then (0 : ℚ) else c i * y (i + 1)) =
      (if i = n - 1 then 0 else c i * y' (i + 1)) := by
    split_ifs with h1
    · rfl
    · rw [h (i + 1) (by omega)]
  rw [rowLHS, rowLHS, h i hi, ha2, hc2]

/-- C1: for n ≥ 2, m ≥ 1, a tridiagonal system with `a[0] = 0` and
`c[n-1] = 0` and nonzero forward-elimination pivots, `tdma` turns `b` into
the pivot sequence `b[i] - (a[i]/b[i-1])·c[i-1]` and overwrites every column
of `d` with the value given by the exact Thomas-algorithm recurrences
(`colX`), and that value is the unique solution of the tridiagonal system
`A·x = d` for that column. -/
theorem c1_tdma_strict_thomas (n m : ℕ) (s : TriState) (hn : 2 ≤ n) (hm : 1 ≤ m)
    (ha : s.a 0 = 0) (hc : s.c (n - 1) = 0)
    (hp : ∀ i, i < n → pivots s.a s.b s.c i ≠ 0) :
    (∀ i, i < n → (tdma n m s).b i = pivots s.a s.b s.c i) ∧
    ∀ j, j < m →
      (∀ i, i < n → (tdma n m s).d i j = colX s.a s.b s.c (fun r => s.d r j) n i) ∧
      (∀ i, i < n → rowLHS s.a s.b s.c n (fun r => (tdma n m s).d r j) i = s.d i j) ∧
      (∀ y : ℕ → ℚ, (∀ i, i < n → rowLHS s.a s.b s.c n y i = s.d i j) →
        ∀ i, i < n → y i = (tdma n m s).d i j) := by
  constructor
  · intro i hi
    rw [tdma_strict_eq n m s ha hc]
    dsimp only
    rw [backIter_b, fwdIter_b, if_pos (by omega)]
  intro j hj
  have hd : ∀ i, i < n → (tdma n m s).d i j = colX s.a s.b s.c (fun r => s.d r j) n i :=
    fun i hi => tdma_strict_d n m s ha hc j hj i hi
  refine ⟨hd, ?_, ?_⟩
  · intro i hi
    rw [rowLHS_congr s.a s.b s.c n _ _ i hi fun r hr => hd r hr]
    exact rows_solve s.a s.b s.c (fun r => s.d r j) n hp i hi
  · intro y hy i hi
    rw [hd i hi]
    exact uniq_solve s.a s.b s.c (fun r => s.d r j) n (by omega) hp y hy i hi

/-- Concrete strict tridiagonal system used to witness the solver claims. -/
def wStrict : TriState :=
  { a := fun _ => 0
    b := fun _ => 1
    c := fun _ => 0
    d := fun i j => (i : ℚ) + (j : ℚ) + 1
    q := fun _ => 0 }

theorem c1_tdma_strict_thomas_witness :
    (tdma 2 1 wStrict).d 0 0 =
      colX wStrict.a wStrict.b wStrict.c (fun r => wStrict.d r 0) 2 0 :=
  (((c1_tdma_strict_thomas 2 1 wStrict (by norm_num) (by norm_num) rfl rfl
    (by intro i hi
        interval_cases i <;> norm_num [pivots, wStrict])).2 0 (by norm_num)).1) 0 (by norm_num)

/-! ### Values of the perturbed-regime corner setup -/

theorem setupA_zero (s : TriState) : setupA s 0 = 0 := rfl

theorem setupA_ne (s : TriState) (i : ℕ) (h : i ≠ 0) : setupA s i = s.a i := by
  simp [setupA, updF, h]

theorem setupB_zero (n : ℕ) (s : TriState) (hn : 2 ≤ n) : setupB n s 0 = 2 * s.b 0 := by
  simp [setupB, updF, show ¬(0 = n - 1) by omega]

theorem setupB_last (n : ℕ) (s : TriState) (hn : 2 ≤ n) :
    setupB n s (n - 1) = s.b (n - 1) + s.c (n - 1) * (s.a 0 / s.b 0) := by
  simp [setupB, updF, show ¬(n - 1 = 0) by omega]

theorem setupB_mid (n : ℕ) (s : TriState) (i : ℕ) (h0 : i ≠ 0) (h1 : i ≠ n - 1) :
    setupB n s i = s.b i := by
  simp [setupB, updF, h0, h1]

theorem setupC_last (n : ℕ) (s : TriState) : setupC n s (n - 1) = 0 := by
  simp [setupC, updF]

theorem setupC_ne (n : ℕ) (s : TriState) (i : ℕ) (h : i ≠ n - 1) : setupC n s i = s.c i := by
  simp [setupC, updF, h]

theorem setupQ_zero (n : ℕ) (s : TriState) (hn : 2 ≤ n) : setupQ n s 0 = -s.b 0 := by
  simp [setupQ, updF, show ¬(0 = n - 1) by omega]

theorem setupQ_last (n : ℕ) (s : TriState) : setupQ n s (n - 1) = s.c (n - 1) := by
  simp [setupQ, updF]

theorem setupQ_mid (n : ℕ) (s : TriState) (i : ℕ) (h0 : 1 ≤ i) (h1 : i ≠ n - 1)
    (h2 : i < n) : setupQ n s i = 0 := by
  simp [setupQ, updF, h1, show ¬(i = 0) by omega, h0, h2]

/-- `cornerRow` only reads its solution vector at rows `< n`. -/
theorem cornerRow_congr (a b c : ℕ → ℚ) (n : ℕ) (y y' : ℕ → ℚ) (i : ℕ)
    (hi : i < n) (hn : 2 ≤ n) (h : ∀ r, r < n → y r = y' r) :
    cornerRow a b c n y i = cornerRow a b c n y' i := by
  by_cases h0 : i = 0
  · rw [cornerRow, cornerRow, if_pos h0, if_pos h0, h 0 (by omega), h 1 (by omega),
      h (n - 1) (by omega)]
  · by_cases h1 : i = n - 1
    · rw [cornerRow, cornerRow, if_neg h0, if_neg h0, if_pos h1, if_pos h1,
        h 0 (by omega), h (n - 2) (by omega), h (n - 1) (by omega)]
    · rw [cornerRow, cornerRow, if_neg h0, if_neg h0, if_neg h1, if_neg h1,
        h (i - 1) (by omega), h i hi, h (i + 1) (by omega)]

/-- Sherman-Morrison correctness: if `Y` solves the corner-modified
tridiagonal system with right-hand side `d0`, `Z` solves it with right-hand
side `q`, and `K` satisfies the correction equation, then `Y - K·Z` solves
the original corner-coupled system. -/
theorem sherman_correct (s : TriState) (n : ℕ) (hn : 2 ≤ n)
    (d0 Y Z : ℕ → ℚ) (K : ℚ) (hb0 : s.b 0 ≠ 0)
    (hy : ∀ i, i < n → rowLHS (setupA s) (setupB n s) (setupC n s) n Y i = d0 i)
    (hz : ∀ i, i < n → rowLHS (setupA s) (setupB n s) (setupC n s) n Z i = setupQ n s i)
    (hK : K * (1 + (Z 0 - Z (n - 1) * (s.a 0 / s.b 0))) =
      Y 0 - Y (n - 1) * (s.a 0 / s.b 0)) :
    ∀ i, i < n → cornerRow s.a s.b s.c n (fun r => Y r - K * Z r) i = d0 i := by
  have hE4 : s.a 0 / s.b 0 * s.b 0 = s.a 0 := div_mul_cancel₀ _ hb0
  intro i hi
  by_cases h0 : i = 0
  · subst h0
    have E1 := hy 0 (by omega)
    rw [rowLHS, if_pos rfl, if_neg (show ¬(0 = n - 1) by omega), setupB_zero n s hn,
      setupC_ne n s 0 (by omega)] at E1
    simp only [zero_add] at E1
    have E2 := hz 0 (by omega)
    rw [rowLHS, if_pos rfl, if_neg (show ¬(0 = n - 1) by omega), setupB_zero n s hn,
      setupC_ne n s 0 (by omega), setupQ_zero n s hn] at E2
    simp only [zero_add] at E2
    rw [cornerRow, if_pos rfl]
    show s.b 0 * (Y 0 - K * Z 0) + s.c 0 * (Y 1 - K * Z 1) +
      s.a 0 * (Y (n - 1) - K * Z (n - 1)) = d0 0
    linear_combination E1 - K * E2 + s.b 0 * hK - (Y (n - 1) - K * Z (n - 1)) * hE4
  · by_cases h1 : i = n - 1
    · subst h1
      have E5 := hy (n - 1) (by omega)
      rw [rowLHS, if_neg h0, if_pos rfl, setupA_ne s (n - 1) h0, setupB_last n s hn,
        show n - 1 - 1 = n - 2 by omega] at E5
      simp only [add_zero] at E5
      have E6 := hz (n - 1) (by omega)
      rw [rowLHS, if_neg h0, if_pos rfl, setupA_ne s (n - 1) h0, setupB_last n s hn,
        show n - 1 - 1 = n - 2 by omega, setupQ_last n s] at E6
      simp only [add_zero] at E6
      rw [cornerRow, if_neg h0, if_pos rfl]
      show s.c (n - 1) * (Y 0 - K * Z 0) + s.a (n - 1) * (Y (n - 2) - K * Z (n - 2)) +
        s.b (n - 1) * (Y (n - 1) - K * Z (n - 1)) = d0 (n - 1)
      linear_combination E5 - K * E6 - s.c (n - 1) * hK
    · have E7 := hy i hi
      rw [rowLHS, if_neg h0, if_neg h1, setupA_ne s i h0, setupB_mid n s i h0 h1,
        setupC_ne n s i h1] at E7
      have E8 := hz i hi
      rw [rowLHS, if_neg h0, if_neg h1, setupA_ne s i h0, setupB_mid n s i h0 h1,
        setupC_ne n s i h1, setupQ_mid n s i (by omega) h1 hi] at E8
      rw [cornerRow, if_neg h0, if_neg h1]
      show s.a i * (Y (i - 1) - K * Z (i - 1)) + s.b i * (Y i - K * Z i) +
        s.c i * (Y (i + 1) - K * Z (i + 1)) = d0 i
      linear_combination E7 - K * E8

/-- C2: in the perturbed regime (`a[0] ≠ 0` or `c[n-1] ≠ 0`), `tdma`
performs the Sherman-Morrison reduction exactly as specified — it solves the
corner-modified system (`setupA/B/C`) for every column of `d` and for the
auxiliary column `q` (`setupQ`) by the same elimination, then subtracts
`k·q` with `k = vy/(1+vq)` — and, whenever the modified pivots are nonzero
and `1 + vq ≠ 0`, the resulting `d` solves the original corner-coupled
system. -/
theorem c2_tdma_perturbed_sherman (n m : ℕ) (s : TriState) (hn : 2 ≤ n) (hm : 1 ≤ m)
    (hpert : s.a 0 ≠ 0 ∨ s.c (n - 1) ≠ 0)
    (hp : ∀ i, i < n → pivots (setupA s) (setupB n s) (setupC n s) i ≠ 0)
    (hvq : 1 + (colX (setupA s) (setupB n s) (setupC n s) (setupQ n s) n 0 -
      colX (setupA s) (setupB n s) (setupC n s) (setupQ n s) n (n - 1) *
        (s.a 0 / s.b 0)) ≠ 0) :
    ∀ j, j < m →
      (∀ i, i < n → (tdma n m s).d i j =
        colX (setupA s) (setupB n s) (setupC n s) (fun r => s.d r j) n i -
          (colX (setupA s) (setupB n s) (setupC n s) (fun r => s.d r j) n 0 -
            colX (setupA s) (setupB n s) (setupC n s) (fun r => s.d r j) n (n - 1) *
              (s.a 0 / s.b 0)) /
            (1 + (colX (setupA s) (setupB n s) (setupC n s) (setupQ n s) n 0 -
              colX (setupA s) (setupB n s) (setupC n s) (setupQ n s) n (n - 1) *
                (s.a 0 / s.b 0))) *
            colX (setupA s) (setupB n s) (setupC n s) (setupQ n s) n i) ∧
      (∀ i, i < n →
        cornerRow s.a s.b s.c n (fun r => (tdma n m s).d r j) i = s.d i j) := by
  intro j hj
  have hb0 : s.b 0 ≠ 0 := by
    have h0 := hp 0 (by omega)
    rw [pivots_zero, setupB_zero n s hn] at h0
    intro hb
    rw [hb, mul_zero] at h0
    exact h0 rfl
  have hd : ∀ i, i < n → (tdma n m s).d i j =
      colX (setupA s) (setupB n s) (setupC n s) (fun r => s.d r j) n i -
        (colX (setupA s) (setupB n s) (setupC n s) (fun r => s.d r j) n 0 -
          colX (setupA s) (setupB n s) (setupC n s) (fun r => s.d r j) n (n - 1) *
            (s.a 0 / s.b 0)) /
          (1 + (colX (setupA s) (setupB n s) (setupC n s) (setupQ n s) n 0 -
            colX (setupA s) (setupB n s) (setupC n s) (setupQ n s) n (n - 1) *
              (s.a 0 / s.b 0))) *
          colX (setupA s) (setupB n s) (setupC n s) (setupQ n s) n i :=
    fun i hi => tdma_pert_d n m s hn hpert j hj i hi
  refine ⟨hd, ?_⟩
  intro i hi
  have hcr := cornerRow_congr s.a s.b s.c n (fun r => (tdma n m s).d r j)
    (fun r => colX (setupA s) (setupB n s) (setupC n s) (fun t => s.d t j) n r -
      (colX (setupA s) (setupB n s) (setupC n s) (fun t => s.d t j) n 0 -
        colX (setupA s) (setupB n s) (setupC n s) (fun t => s.d t j) n (n - 1) *
          (s.a 0 / s.b 0)) /
        (1 + (colX (setupA s) (setupB n s) (setupC n s) (setupQ n s) n 0 -
          colX (setupA s) (setupB n s) (setupC n s) (setupQ n s) n (n - 1) *
            (s.a 0 / s.b 0))) *
        colX (setupA s) (setupB n s) (setupC n s) (setupQ n s) n r)
    i hi hn (fun r hr => hd r hr)
  rw [hcr]
  exact sherman_correct s n hn (fun r => s.d r j)
    (colX (setupA s) (setupB n s) (setupC n s) (fun t => s.d t j) n)
    (colX (setupA s) (setupB n s) (setupC n s) (setupQ n s) n)
    ((colX (setupA s) (setupB n s) (setupC n s) (fun t => s.d t j) n 0 -
      colX (setupA s) (setupB n s) (setupC n s) (fun t => s.d t j) n (n - 1) *
        (s.a 0 / s.b 0)) /
      (1 + (colX (setupA s) (setupB n s) (setupC n s) (setupQ n s) n 0 -
        colX (setupA s) (setupB n s) (setupC n s) (setupQ n s) n (n - 1) *
          (s.a 0 / s.b 0))))
    hb0
    (rows_solve (setupA s) (setupB n s) (setupC n s) (fun t => s.d t j) n hp)
    (rows_solve (setupA s) (setupB n s) (setupC n s) (setupQ n s) n hp)
    (div_mul_cancel₀ _ hvq) i hi

/-- Concrete corner-coupled system (periodic-style rows) used to witness
the perturbed-regime claim. -/
def wPert : TriState :=
  { a := fun _ => 1
    b := fun _ => 4
    c := fun _ => 1
    d := fun _ _ => 1
    q := fun _ => 0 }

theorem c2_tdma_perturbed_sherman_witness :
    cornerRow wPert.a wPert.b wPert.c 2 (fun r => (tdma 2 1 wPert).d r 0) 0 =
      wPert.d 0 0 :=
  ((c2_tdma_perturbed_sherman 2 1 wPert (by norm_num) (by norm_num)
    (Or.inl (by norm_num [wPert]))
    (by intro i hi
        interval_cases i <;>
          norm_num [pivots, setupA, setupB, setupC, updF, wPert])
    (by norm_num [colX, backRec, colF, pivots, setupA, setupB, setupC, setupQ,
      updF, wPert])) 0 (by norm_num)).2 0 (by norm_num)

/-- C3: the builder populates the system rows exactly as specified — interior
rows get `a=1, b=4, c=1` and the second-difference right-hand side, the left
row (i=0) follows the left boundary condition and the right row (i=n-1) the
symmetric rule. -/
theorem c3_builder_rows (n m : ℕ) (p : ℕ → ℕ → ℚ) (lt rt : Option (ℕ → ℚ))
    (hn : 2 ≤ n) (hm : 1 ≤ m) (lbc rbc : BoundaryCondition) :
    (∀ i, 0 < i → i < n - 1 →
      buildA lbc rbc n i = 1 ∧ buildB lbc rbc n i = 4 ∧ buildC lbc rbc n i = 1 ∧
      ∀ j, j < m → buildD lbc rbc n m p lt rt i j =
        6 * ((p (i + 1) j - p i j) - (p i j - p (i - 1) j))) ∧
    (lbc = .Natural →
      buildA lbc rbc n 0 = 0 ∧ buildB lbc rbc n 0 = 1 ∧ buildC lbc rbc n 0 = 0 ∧
      ∀ j, j < m → buildD lbc rbc n m p lt rt 0 j = 0) ∧
    (lbc = .Hermite →
      buildA lbc rbc n 0 = 0 ∧ buildB lbc rbc n 0 = 2 ∧ buildC lbc rbc n 0 = 1 ∧
      ∀ tl, lt = some tl → ∀ j, j < m →
        buildD lbc rbc n m p lt rt 0 j = 6 * ((p 1 j - p 0 j) - tl j)) ∧
    (lbc = .Periodic →
      buildA lbc rbc n 0 = 1 ∧ buildB lbc rbc n 0 = 4 ∧ buildC lbc rbc n 0 = 1 ∧
      ∀ j, j < m → buildD lbc rbc n m p lt rt 0 j =
        6 * ((p 1 j - p 0 j) - (p 0 j - p (n - 1) j))) ∧
    (rbc = .Natural →
      buildA lbc rbc n (n - 1) = 0 ∧ buildB lbc rbc n (n - 1) = 1 ∧
      buildC lbc rbc n (n - 1) = 0 ∧
      ∀ j, j < m → buildD lbc rbc n m p lt rt (n - 1) j = 0) ∧
    (rbc = .Hermite →
      buildA lbc rbc n (n - 1) = 1 ∧ buildB lbc rbc n (n - 1) = 2 ∧
      buildC lbc rbc n (n - 1) = 0 ∧
      ∀ tr, rt = some tr → ∀ j, j < m →
        buildD lbc rbc n m p lt rt (n - 1) j =
          6 * (tr j - (p (n - 1) j - p (n - 2) j))) ∧
    (rbc = .Periodic →
      buildA lbc rbc n (n - 1) = 1 ∧ buildB lbc rbc n (n - 1) = 4 ∧
      buildC lbc rbc n (n - 1) = 1 ∧
      ∀ j, j < m → buildD lbc rbc n m p lt rt (n - 1) j =
        6 * ((p 0 j - p (n - 1) j) - (p (n - 1) j - p (n - 2) j))) := by
  have hn0 : n - 1 ≠ 0 := by omega
  have hn11 : n - 1 - 1 = n - 2 := by omega
  refine ⟨?_, ?_, ?_, ?_, ?_, ?_, ?_⟩
  · intro i h0 h1
    have hi0 : i ≠ 0 := by omega
    have hin : i ≠ n - 1 := by omega
    exact ⟨by simp [buildA, hi0, hin], by simp [buildB, hi0, hin],
      by simp [buildC, hi0, hin], fun j hj => by simp [buildD, hi0, hin]⟩
  · intro hl
    subst hl
    exact ⟨rfl, rfl, rfl, fun j hj => rfl⟩
  · intro hl
    subst hl
    refine ⟨rfl, rfl, rfl, ?_⟩
    intro tl htl j hj
    subst htl
    simp [buildD, tangentAt]
  · intro hl
    subst hl
    exact ⟨rfl, rfl, rfl, fun j hj => rfl⟩
  · intro hr
    subst hr
    refine ⟨?_, ?_, ?_, ?_⟩ <;>
      simp [buildA, buildB, buildC, buildD, hn0]
  · intro hr
    subst hr
    refine ⟨by simp [buildA, hn0], by simp [buildB, hn0], by simp [buildC, hn0], ?_⟩
    intro tr htr j hj
    subst htr
    simp [buildD, tangentAt, hn0, hn11]
  · intro hr
    subst hr
    refine ⟨by simp [buildA, hn0], by simp [buildB, hn0], by simp [buildC, hn0], ?_⟩
    intro j hj
    simp [buildD, hn0]

theorem c3_builder_rows_witness :
    buildA .Natural .Natural 3 1 = 1 ∧
      buildD .Natural .Natural 3 1 (fun i j => (i : ℚ)) none none 1 0 = 0 := by
  have h := c3_builder_rows 3 1 (fun i j => (i : ℚ)) none none (by norm_num)
    (by norm_num) .Natural .Natural
  have h1 := (h.1 1 (by norm_num) (by norm_num))
  refine ⟨h1.1, ?_⟩
  rw [h1.2.2.2 0 (by norm_num)]
  norm_num

/-- C4: with Natural boundary conditions on both ends, the computed moments
at the first and last point are exactly 0 in every dimension. -/
theorem c4_natural_end_moments (n m : ℕ) (p : ℕ → ℕ → ℚ) (lt rt : Option (ℕ → ℚ))
    (hn : 2 ≤ n) (hm : 1 ≤ m) (j : ℕ) (hj : j < m) :
    computeMoments n m p .Natural .Natural lt rt 0 j = 0 ∧
      computeMoments n m p .Natural .Natural lt rt (n - 1) j = 0 := by
  obtain ⟨k, rfl⟩ : ∃ k, n = k + 2 := ⟨n - 2, by omega⟩
  have h21 : k + 2 - 1 = k + 1 := by omega
  have ha : (buildState (k + 2) m p .Natural .Natural lt rt).a 0 = 0 := rfl
  have hc : (buildState (k + 2) m p .Natural .Natural lt rt).c (k + 2 - 1) = 0 := by
    simp [buildState, buildC, h21]
  have hA1 : buildA BoundaryCondition.Natural BoundaryCondition.Natural (k + 2) (k + 1) = 0 := by
    simp [buildA, h21]
  have hD1 : buildD BoundaryCondition.Natural BoundaryCondition.Natural
      (k + 2) m p lt rt (k + 1) j = 0 := by
    simp [buildD, h21]
  have hF1 : colF (buildA .Natural .Natural (k + 2)) (buildB .Natural .Natural (k + 2))
      (buildC .Natural .Natural (k + 2))
      (fun r => buildD .Natural .Natural (k + 2) m p lt rt r j) (k + 1) = 0 := by
    rw [colF_succ]
    simp only [hA1, hD1]
    simp
  constructor
  · rw [computeMoments, tdma_strict_d (k + 2) m _ ha hc j hj 0 (by omega)]
    simp only [buildState]
    rw [colX, show k + 2 - 1 - 0 = k + 1 by omega, backRec_succ,
      show k + 2 - 2 - k = 0 by omega, colF_zero]
    simp [buildC, buildD]
  · rw [computeMoments, tdma_strict_d (k + 2) m _ ha hc j hj (k + 2 - 1) (by omega)]
    simp only [buildState]
    rw [colX, show k + 2 - 1 - (k + 2 - 1) = 0 by omega, backRec_zero, h21, hF1, zero_div]

theorem c4_natural_end_moments_witness :
    computeMoments 2 1 (fun i _ => (i : ℚ)) .Natural .Natural none none 0 0 = 0 ∧
      computeMoments 2 1 (fun i _ => (i : ℚ)) .Natural .Natural none none (2 - 1) 0 = 0 :=
  c4_natural_end_moments 2 1 (fun i _ => (i : ℚ)) none none (by norm_num) (by norm_num)
    0 (by norm_num)

/-! ### Evaluation -/

theorem cubicPoint_zero (p M : ℕ → ℕ → ℚ) (i j : ℕ) : cubicPoint p M i 0 j = p i j := by
  simp only [cubicPoint]
  ring

theorem cubicPoint_one (p M : ℕ → ℕ → ℚ) (i j : ℕ) :
    cubicPoint p M i 1 j = p (i + 1) j := by
  simp only [cubicPoint]
  ring

/-- Evaluating at the exact parametric position of pivot point `i` returns
`p i`, for arbitrary moments. -/
theorem evalAt_node (n : ℕ) (p M : ℕ → ℕ → ℚ) (i j : ℕ) (hn : 2 ≤ n) (hi : i < n) :
    evalAt n p M ((i : ℚ) / ((n : ℚ) - 1)) j = p i j := by
  have hn2 : (2 : ℚ) ≤ (n : ℚ) := by exact_mod_cast hn
  have hden : ((n : ℚ) - 1) ≠ 0 := by linarith
  have hu : (i : ℚ) / ((n : ℚ) - 1) * ((n : ℚ) - 1) = (i : ℚ) := div_mul_cancel₀ _ hden
  rw [evalAt]
  simp only [evalIdxT, hu, Int.floor_natCast]
  by_cases hlast : (i : ℤ) = (n : ℤ) - 1
  · rw [if_pos hlast]
    dsimp only
    rw [show ((n : ℤ) - 1 - 1).toNat = n - 2 by omega, cubicPoint_one,
      show n - 2 + 1 = n - 1 by omega, show i = n - 1 by omega]
  · rw [if_neg hlast]
    dsimp only
    have hf : fmodOne ((i : ℚ)) = 0 := by
      rw [fmodOne, ratTrunc, if_pos (by positivity)]
      simp
    rw [hf, Int.toNat_natCast, cubicPoint_zero]

/-- C5: for every configured spline (any boundary conditions) and every
point index `i < n`, evaluating at `s = i/(n-1)` returns point `i` exactly
(exact rational arithmetic). -/
theorem c5_interpolation (n m : ℕ) (p : ℕ → ℕ → ℚ) (lbc rbc : BoundaryCondition)
    (lt rt : Option (ℕ → ℚ)) (i j : ℕ) (hn : 2 ≤ n) (hm : 1 ≤ m) (hi : i < n)
    (hj : j < m) :
    evalAt n p (computeMoments n m p lbc rbc lt rt) ((i : ℚ) / ((n : ℚ) - 1)) j =
      p i j :=
  evalAt_node n p (computeMoments n m p lbc rbc lt rt) i j hn hi

theorem c5_interpolation_witness :
    evalAt 2 (fun i _ => (i : ℚ))
      (computeMoments 2 1 (fun i _ => (i : ℚ)) .Natural .Natural none none)
      ((1 : ℚ) / ((2 : ℚ) - 1)) 0 = (fun i _ => (i : ℚ)) 1 0 :=
  c5_interpolation 2 1 (fun i _ => (i : ℚ)) .Natural .Natural none none 1 0
    (by norm_num) (by norm_num) (by norm_num) (by norm_num)

/-- C8: on `[0,1]`, single-point `eval` selects `idx = ⌊s·(n-1)⌋` with
fractional part `t = s·(n-1) - idx`, clamps `idx = n-1` to `(n-2, t=1)`, and
applies the cubic-on-moments formula `cubicPoint`. -/
theorem c8_eval_segment_formula (n : ℕ) (p M : ℕ → ℕ → ℚ) (s : ℚ) (j : ℕ)
    (hn : 2 ≤ n) (h0 : 0 ≤ s) (h1 : s ≤ 1) :
    (⌊s * ((n : ℚ) - 1)⌋ = (n : ℤ) - 1 →
      evalAt n p M s j = cubicPoint p M (n - 2) 1 j) ∧
    (⌊s * ((n : ℚ) - 1)⌋ ≠ (n : ℤ) - 1 →
      evalAt n p M s j =
        cubicPoint p M (⌊s * ((n : ℚ) - 1)⌋).toNat
          (s * ((n : ℚ) - 1) - (⌊s * ((n : ℚ) - 1)⌋ : ℚ)) j) := by
  have hn2 : (2 : ℚ) ≤ (n : ℚ) := by exact_mod_cast hn
  have hu0 : 0 ≤ s * ((n : ℚ) - 1) := mul_nonneg h0 (by linarith)
  constructor
  · intro hlast
    rw [evalAt]
    simp only [evalIdxT]
    rw [if_pos hlast]
    dsimp only
    rw [show ((n : ℤ) - 1 - 1).toNat = n - 2 by omega]
  · intro hlast
    rw [evalAt]
    simp only [evalIdxT]
    rw [if_neg hlast]
    dsimp only
    rw [fmodOne, ratTrunc, if_pos hu0]

theorem c8_eval_segment_formula_witness :
    evalAt 2 (fun i _ => (i : ℚ)) (fun _ _ => 0) (1 / 2) 0 =
      cubicPoint (fun i _ => (i : ℚ)) (fun _ _ => 0)
        (⌊(1 / 2 : ℚ) * ((2 : ℚ) - 1)⌋).toNat
        ((1 / 2 : ℚ) * ((2 : ℚ) - 1) - (⌊(1 / 2 : ℚ) * ((2 : ℚ) - 1)⌋ : ℚ)) 0 :=
  (c8_eval_segment_formula 2 (fun i _ => (i : ℚ)) (fun _ _ => 0) (1 / 2) 0
    (by norm_num) (by norm_num) (by norm_num)).2 (by norm_num)

/-- C9 counterexample: at `n = 2`, `s = 2`, the code's index selection
returns `idx = 2`, not the claimed clamped value `n - 2 = 0`: the high clamp
fires only when `⌊s·(n-1)⌋` is exactly `n-1`. -/
theorem c9_counterexample : (evalIdxT 2 2).1 = 2 ∧ (2 : ℤ) ≠ (2 : ℤ) - 2 := by
  constructor
  · simp only [evalIdxT]
    norm_num
  · norm_num

/-- C9 amended: for `s > 1`, `eval` uses the same cubic formula with
`idx = ⌊s·(n-1)⌋` clamped to `(n-2, t=1)` only when that floor equals
`n-1`; otherwise the index is at least `n` (beyond the valid rows) and is
used unclamped. -/
theorem c9_eval_extrapolation (n : ℕ) (p M : ℕ → ℕ → ℚ) (s : ℚ) (j : ℕ)
    (hn : 2 ≤ n) (hs : 1 < s) :
    (⌊s * ((n : ℚ) - 1)⌋ = (n : ℤ) - 1 →
      evalAt n p M s j = cubicPoint p M (n - 2) 1 j) ∧
    (⌊s * ((n : ℚ) - 1)⌋ ≠ (n : ℤ) - 1 →
      (n : ℤ) ≤ ⌊s * ((n : ℚ) - 1)⌋ ∧
      evalAt n p M s j =
        cubicPoint p M (⌊s * ((n : ℚ) - 1)⌋).toNat
          (s * ((n : ℚ) - 1) - (⌊s * ((n : ℚ) - 1)⌋ : ℚ)) j) := by
  have hn2 : (2 : ℚ) ≤ (n : ℚ) := by exact_mod_cast hn
  have hu0 : 0 ≤ s * ((n : ℚ) - 1) := by nlinarith
  have hfl : (n : ℤ) - 1 ≤ ⌊s * ((n : ℚ) - 1)⌋ := by
    rw [Int.le_floor]
    push_cast
    nlinarith
  constructor
  · intro hlast
    rw [evalAt]
    simp only [evalIdxT]
    rw [if_pos hlast]
    dsimp only
    rw [show ((n : ℤ) - 1 - 1).toNat = n - 2 by omega]
  · intro hlast
    refine ⟨by omega, ?_⟩
    rw [evalAt]
    simp only [evalIdxT]
    rw [if_neg hlast]
    dsimp only
    rw [fmodOne, ratTrunc, if_pos hu0]

theorem c9_eval_extrapolation_witness :
    evalAt 2 (fun i _ => (i : ℚ)) (fun _ _ => 0) (3 / 2) 0 =
      cubicPoint (fun i _ => (i : ℚ)) (fun _ _ => 0) (2 - 2) 1 0 :=
  (c9_eval_extrapolation 2 (fun i _ => (i : ℚ)) (fun _ _ => 0) (3 / 2) 0
    (by norm_num) (by norm_num)).1 (by norm_num)

/-- C6 (code behavior at the failing input): the builder's switch has no
NotAKnot case, so NotAKnot falls into the default branch and the whole
moment computation behaves exactly like Natural, on either end — no error
is raised. -/
theorem c6_notaknot_falls_back_to_natural (n m : ℕ) (p : ℕ → ℕ → ℚ)
    (lt rt : Option (ℕ → ℚ)) :
    (∀ rbc, computeMoments n m p .NotAKnot rbc lt rt =
      computeMoments n m p .Natural rbc lt rt) ∧
    (∀ lbc, computeMoments n m p lbc .NotAKnot lt rt =
      computeMoments n m p lbc .Natural lt rt) := by
  constructor
  · intro rbc
    rfl
  · intro lbc
    rfl

/-- C7 (code behavior at the failing input): `set` performs no validation of
`num_points`; with `n = 1` it runs to completion and silently stores a zero
moment instead of failing. -/
theorem c7_degenerate_no_error (p : ℕ → ℕ → ℚ) :
    (splineSet p 1 1 .Natural .Natural none none).moments 0 0 = 0 := by
  simp [splineSet, computeMoments, tdma, pertFlag, buildState, buildA, buildB,
    buildC, buildD, fwdIter, backIter, backDiv, updF]

/-- C10: on strict-regime inputs (`a[0] = 0` and `c[n-1] = 0`) `tdma` never
writes `a`, `c` or `q`, leaves `b[0]` untouched, and writes `b` only at rows
`1 … n-1`. -/
theorem c10_strict_frame (n m : ℕ) (s : TriState) (hn : 2 ≤ n)
    (ha : s.a 0 = 0) (hc : s.c (n - 1) = 0) :
    (tdma n m s).a = s.a ∧ (tdma n m s).c = s.c ∧ (tdma n m s).q = s.q ∧
      (tdma n m s).b 0 = s.b 0 ∧ ∀ i, n ≤ i → (tdma n m s).b i = s.b i := by
  rw [tdma_strict_eq n m s ha hc]
  refine ⟨rfl, rfl, ?_, ?_, ?_⟩
  · rw [backIter_q_false, fwdIter_q_false]
  · dsimp only
    rw [backIter_b, fwdIter_b, if_pos (by omega)]
    rfl
  · intro i hi
    dsimp only
    rw [backIter_b, fwdIter_b, if_neg (by omega)]

theorem c10_strict_frame_witness :
    (tdma 2 1 wStrict).a = wStrict.a ∧ (tdma 2 1 wStrict).c = wStrict.c ∧
      (tdma 2 1 wStrict).q = wStrict.q ∧ (tdma 2 1 wStrict).b 0 = wStrict.b 0 ∧
      ∀ i, 2 ≤ i → (tdma 2 1 wStrict).b i = wStrict.b i :=
  c10_strict_frame 2 1 wStrict (by norm_num) rfl rfl
